import Mathlib

/-
Shallow embedding of the magitrickle traffic-steering daemon core
(repository Ponywka/kvas2): the DNS-answer engine of
`magitrickle.go` (App.processARecord / App.processAAAARecord /
App.processCNameRecord / App.AddGroup / App.ImportConfig / the request
hook and the control-socket handler of App.start), the group layer of
`group` (Group.Enable / Group.Disable / Group.Sync /
Group.NetfilterDHook) and the record cache of `ruleComposer`
(Records.getCNames / Records.PutARecord), together with theorems
settling the specification claims against these definitions.

Machine integers are modelled as Nat / Int with explicit reduction
modulo 2^32 where the Go code works in uint32; Go maps are modelled as
association lists or as Lean functions, as noted at each definition.
-/

namespace Magitrickle

/-- DNS name; the engine stores names without the trailing dot. -/
abbrev DName := String

/-- Raw address bytes: the Go code keys addresses by `string(addr)`
(the byte-string cast of a `net.IP`). -/
abbrev Addr := String

/-- Modulus of 32-bit unsigned (Go `uint32`) arithmetic. -/
def U32 : Nat := 2 ^ 32

/-- Rendering of `aRecord.Hdr.Name[:len(aRecord.Hdr.Name)-1]`: the Go
code drops the final byte (the trailing dot) of a DNS name. -/
def stripDot (s : String) : String := String.mk s.data.dropLast

/-- models.Rule as the engine uses it: the rule id (4 bytes, rendered
as a Nat), the enabled flag queried through `IsEnabled`, and the opaque
match predicate queried through `IsMatch` (out of scope of the spec,
supplied by the rule object). -/
structure Rule where
  id : Nat
  isEnabled : Bool
  isMatch : DName → Bool

/-- A group as the DNS-answer engine sees it (group.Group embedding
models.Group): its id and its ordered rule list. -/
structure Group where
  id : Nat
  rules : List Rule

/-- Effectful calls the engine makes while processing one answer
record: records.AddARecord, records.AddCNameRecord and group.AddIP
(the IP-set insertion carrying the group id and the entry timeout). -/
inductive EngineOp where
  | putA (name : DName) (addr : Addr) (ttl : Nat)
  | putCName (name : DName) (target : DName) (ttl : Nat)
  | addIP (groupId : Nat) (addr : Addr) (ttl : Nat)
deriving DecidableEq, Repr

/-- dns.A / dns.AAAA answer record as App.processARecord and
App.processAAAARecord consume it: Hdr.Name (with trailing dot), the
address bytes, and Hdr.Ttl (uint32). -/
structure ARecordRR where
  name : DName
  addr : Addr
  ttl : Nat

/-- dns.CNAME answer record as App.processCNameRecord consumes it:
Hdr.Name, Target (both with trailing dot) and Hdr.Ttl (uint32). -/
structure CNameRR where
  name : DName
  target : DName
  ttl : Nat

/-- One entry returned by records.GetARecords: the address bytes and
the absolute deadline, in seconds (records.AddressTTL with fields
Address and Deadline; the records package itself is not among the
source files, so its reply is taken as an input of the engine). -/
structure ARecordEntry where
  address : Addr
  deadline : Int

/-- Inner rule walk of App.processARecord / App.processAAAARecord for
one group (magitrickle.go lines 396-422): rules are visited in order; a
disabled rule is skipped; at the first enabled rule matching some name
in `names` one group.AddIP is issued and the labelled loop `Rule` is
left via `break Rule`, so the remaining rules of this group are not
examined. -/
def groupAddOpsBreak (gid : Nat) (addr : Addr) (ttl : Nat) (names : List DName) :
    List Rule → List EngineOp
  | [] => []
  | r :: rest =>
    if r.isEnabled && names.any r.isMatch then [EngineOp.addIP gid addr ttl]
    else groupAddOpsBreak gid addr ttl names rest

/-- Variant of the per-group rule walk following the A/AAAA wording of
the spec instead of the source: after inserting the address the walk
moves to the next rule of the same group (a `continue Rule`) rather
than leaving the rule loop. Used only to compare against
`groupAddOpsBreak`. -/
def groupAddOpsNextRule (gid : Nat) (addr : Addr) (ttl : Nat) (names : List DName) :
    List Rule → List EngineOp
  | [] => []
  | r :: rest =>
    if r.isEnabled && names.any r.isMatch then
      EngineOp.addIP gid addr ttl :: groupAddOpsNextRule gid addr ttl names rest
    else groupAddOpsNextRule gid addr ttl names rest

/-- App.processARecord (magitrickle.go lines 375-424); the body of
App.processAAAARecord (lines 426-475) is identical up to the record
field names, so this definition embeds both. `ttlDuration` is the
uint32 sum of the record TTL and AdditionalTTL; the record is stored
under its name without the trailing dot; `getAliases` stands for
records.GetAliases of the records package (absent from the source
files), queried once and reused for every group. -/
def processARecord (additionalTTL : Nat) (groups : List Group)
    (getAliases : DName → List DName) (rr : ARecordRR) : List EngineOp :=
  let ttlDuration := (rr.ttl + additionalTTL) % U32
  let name := stripDot rr.name
  let names := getAliases name
  EngineOp.putA name rr.addr ttlDuration ::
    (groups.map fun g => groupAddOpsBreak g.id rr.addr ttlDuration names g.rules).flatten

/-- Spec-worded variant of App.processARecord, built on
`groupAddOpsNextRule`: identical to `processARecord` except that a
match moves processing to the next rule of the same group. -/
def processARecordNextRule (additionalTTL : Nat) (groups : List Group)
    (getAliases : DName → List DName) (rr : ARecordRR) : List EngineOp :=
  let ttlDuration := (rr.ttl + additionalTTL) % U32
  let name := stripDot rr.name
  let names := getAliases name
  EngineOp.putA name rr.addr ttlDuration ::
    (groups.map fun g => groupAddOpsNextRule g.id rr.addr ttlDuration names g.rules).flatten

/-- Rendering of `uint32(now.Sub(deadline).Seconds())` (magitrickle.go
line 512 and group Sync line 122): the signed difference now − deadline
in seconds, reduced modulo 2^32. For a live record the deadline lies in
the future, the difference is negative, and the spec (§9) records that
the value is "interpreted as unsigned", i.e. wraps. -/
def wrapTTL (now deadline : Int) : Nat := ((now - deadline) % (U32 : Int)).toNat

/-- Inner rule walk of App.processCNameRecord for one group
(magitrickle.go lines 501-528): for every enabled rule matching some
name in `names`, every stored A/AAAA entry of the CNAME's own name is
inserted with timeout `uint32(now.Sub(aRecord.Deadline).Seconds())`,
after which `continue Rule` moves to the next rule of the group. -/
def groupAddOpsCName (gid : Nat) (now : Int) (aRecs : List ARecordEntry)
    (names : List DName) : List Rule → List EngineOp
  | [] => []
  | r :: rest =>
    (if r.isEnabled && names.any r.isMatch then
      aRecs.map fun e => EngineOp.addIP gid e.address (wrapTTL now e.deadline)
    else []) ++ groupAddOpsCName gid now aRecs names rest

/-- App.processCNameRecord (magitrickle.go lines 477-529): the CNAME
link is stored with the uint32 sum of the record TTL and AdditionalTTL;
then the A/AAAA entries currently held for the record's own name and
its aliases are fetched once (`getARecords` and `getAliases` stand for
the corresponding methods of the records package, absent from the
source files) and `groupAddOpsCName` runs for every group. -/
def processCNameRecord (additionalTTL : Nat) (groups : List Group)
    (getAliases : DName → List DName) (getARecords : DName → List ARecordEntry)
    (now : Int) (rr : CNameRR) : List EngineOp :=
  let ttlDuration := (rr.ttl + additionalTTL) % U32
  let name := stripDot rr.name
  let aRecs := getARecords name
  let names := getAliases name
  EngineOp.putCName name (stripDot rr.target) ttlDuration ::
    (groups.map fun g => groupAddOpsCName g.id now aRecs names g.rules).flatten

end Magitrickle

namespace RuleComposer

open Magitrickle (DName Addr U32)

/-- State of the ruleComposer record store: `aRecords` maps a domain
name and an address to the stored absolute deadline (Go:
`map[string]map[string]time.Time`, rendered as a Lean function);
`cnameRecords` maps a domain name to its CNAME entries with their
deadlines (the inner Go map rendered as an association list so that
the iteration of getCNames can be followed). Deadlines are absolute
times in seconds. -/
structure Records where
  aRecords : DName → Addr → Option Int
  cnameRecords : DName → List (DName × Int)

/-- Records.PutARecord (ruleComposer): unconditionally sets
`aRecords[domainName][string(addr)] = now + ttl`. -/
def PutARecord (r : Records) (now : Int) (domainName : DName) (addr : Addr)
    (ttl : Int) : Records :=
  { r with aRecords := fun d a =>
      if d == domainName && a == addr then some (now + ttl) else r.aRecords d a }

/-- Fuel-instrumented rendering of Records.getCNames (ruleComposer):
the live CNAME entries of `domainName` are collected (an entry is
skipped when `now.Sub(deadline) > 0`; the source also purges it, which
does not change the returned list), and in recursive mode getCNames is
re-invoked on each collected name and the results are appended. The
source recursion carries no visited set and no other bound, so its
call tree is reproduced exactly and `fuel` only limits the inspected
depth: a `none` result means the source recursion has not returned
within that depth. -/
def getCNamesFuel : Nat → Records → Int → DName → Bool → Option (List DName)
  | 0, _, _, _, _ => none
  | Nat.succ fuel, r, now, domainName, recursive =>
    let base := ((r.cnameRecords domainName).filter
      (fun p => decide (now - p.2 ≤ 0))).map Prod.fst
    if recursive then
      base.foldl
        (fun acc c =>
          match acc, getCNamesFuel fuel r now c true with
          | some l, some l2 => some (l ++ l2)
          | _, _ => none)
        (some base)
    else some base

end RuleComposer

namespace Magitrickle

/-- One step of building the desired-address map in Group.Sync (group
source lines 121-126): `addresses[addr]` is written when the address is
absent or when the new ttl is larger than the stored one. The Go map is
rendered as an association list; a fresh key is appended, an updated
key keeps its position. -/
def insertDesired (m : List (Addr × Nat)) (a : Addr) (ttl : Nat) :
    List (Addr × Nat) :=
  match m.find? (fun p => p.1 == a) with
  | none => m ++ [(a, ttl)]
  | some p => if ttl > p.2 then m.map (fun q => if q.1 == a then (a, ttl) else q) else m

/-- Desired-set construction of Group.Sync (group source lines
108-128): every enabled rule is walked, intersected with
records.ListKnownDomains, and for each matching domain the live A/AAAA
entries are collected with ttl `uint32(now.Sub(deadline).Seconds())`;
on a duplicate address the larger ttl value wins. `knownDomains` and
`getARecords` stand for the corresponding methods of the records
package (absent from the source files). -/
def desiredAddresses (g : Group) (knownDomains : List DName)
    (getARecords : DName → List ARecordEntry) (now : Int) : List (Addr × Nat) :=
  g.rules.foldl
    (fun m r =>
      if r.isEnabled then
        knownDomains.foldl
          (fun m1 d =>
            if r.isMatch d then
              (getARecords d).foldl
                (fun m2 e => insertDesired m2 e.address (wrapTTL now e.deadline)) m1
            else m1)
          m
      else m)
    []

/-- Contents of a group's IP-set as group.ListIP returns them: an
association list from address bytes to the optional remaining timeout
(a `nil` timeout means the entry never expires). -/
abbrev IPSetState := List (Addr × Option Nat)

/-- Lookup of one address in the IP-set contents. -/
def lookupIP (st : IPSetState) (a : Addr) : Option (Option Nat) :=
  (st.find? (fun p => p.1 == a)).map Prod.snd

/-- Effect of group.AddIP on the listed contents: the entry's timeout
is (re)written; a fresh address is appended. -/
def setIP (st : IPSetState) (a : Addr) (t : Option Nat) : IPSetState :=
  if (st.find? (fun p => p.1 == a)).isSome then
    st.map (fun p => if p.1 == a then (a, t) else p)
  else st ++ [(a, t)]

/-- Effect of group.DelIP on the listed contents. -/
def delIP (st : IPSetState) (a : Addr) : IPSetState :=
  st.filter (fun p => !(p.1 == a))

/-- An IP-set operation issued by Group.Sync: group.AddIP with a
timeout, or group.DelIP. -/
inductive SyncOp where
  | add (a : Addr) (ttl : Nat)
  | del (a : Addr)
deriving DecidableEq, Repr

/-- Add loop of Group.Sync (group source lines 135-158), computed
against the snapshot `st` of ListIP: a desired (addr, ttl) is skipped
when the address is present with a nil timeout, or present with a
timeout that is strictly larger than ttl; otherwise group.AddIP is
issued (note: also when the stored timeout equals ttl). -/
def syncAddOps : List (Addr × Nat) → IPSetState → List SyncOp
  | [], _ => []
  | p :: rest, st =>
    (match lookupIP st p.1 with
     | some none => []
     | some (some cur) => if p.2 < cur then [] else [SyncOp.add p.1 p.2]
     | none => [SyncOp.add p.1 p.2]) ++ syncAddOps rest st

/-- Delete loop of Group.Sync (group source lines 160-177), computed
against the snapshot `st` of ListIP: every listed address that is not a
key of the desired map is deleted. -/
def syncDelOps : IPSetState → List (Addr × Nat) → List SyncOp
  | [], _ => []
  | q :: rest, desired =>
    (if (desired.find? (fun p => p.1 == q.1)).isSome then []
     else [SyncOp.del q.1]) ++ syncDelOps rest desired

/-- Effect of one Sync operation on the IP-set contents. -/
def applySyncOp (st : IPSetState) : SyncOp → IPSetState
  | SyncOp.add a t => setIP st a (some t)
  | SyncOp.del a => delIP st a

/-- The full operation list of one Group.Sync run: the desired map is
built, ListIP is snapshotted, then the add loop and the delete loop
run (both against the snapshot, in source order). -/
def syncOps (g : Group) (knownDomains : List DName)
    (getARecords : DName → List ARecordEntry) (now : Int) (st : IPSetState) :
    List SyncOp :=
  let desired := desiredAddresses g knownDomains getARecords now
  syncAddOps desired st ++ syncDelOps st desired

/-- IP-set contents after one Group.Sync run (the issued operations
applied in order). -/
def syncRun (g : Group) (knownDomains : List DName)
    (getARecords : DName → List ARecordEntry) (now : Int) (st : IPSetState) :
    IPSetState :=
  (syncOps g knownDomains getARecords now st).foldl applySyncOp st

/-- An operation of the second Sync run is benign when it is an add
that rewrites an entry already present with exactly that timeout (so
it changes nothing); a delete is never benign. -/
def benignOp (st : IPSetState) : SyncOp → Bool
  | SyncOp.add a t => lookupIP st a == some (some t)
  | SyncOp.del _ => false

/-- Lookup value of one desired entry (with ttl `t`) after the add
loop of Sync has run over a set whose lookup for that address was
`old`: the nil-timeout entry is kept, a strictly larger stored timeout
is kept, otherwise the desired ttl has been written. -/
def mergeLook (old : Option (Option Nat)) (t : Nat) : Option (Option Nat) :=
  match old with
  | some none => some none
  | some (some cur) => if t < cur then some (some cur) else some (some t)
  | none => some (some t)

/-- An iptables rule position and body: table, chain, and the rule
arguments as AppendUnique / Delete receive them. -/
abbrev FwRule := String × String × List String

/-- State of the two packet-filter families (go-iptables handles
IPTables4 and IPTables6): each is the ordered rule list the daemon can
observe. -/
structure FwState where
  v4 : List FwRule
  v6 : List FwRule
deriving DecidableEq, Repr

/-- iptables.AppendUnique: append the rule only when it is not already
present. -/
def appendUnique (rules : List FwRule) (r : FwRule) : List FwRule :=
  if r ∈ rules then rules else rules ++ [r]

/-- iptables.Delete: remove the rule (a missing rule is not an
error). -/
def deleteRule (rules : List FwRule) (r : FwRule) : List FwRule :=
  rules.filter (fun x => decide (x ≠ r))

/-- The fix-protect rule Group.Enable appends on the v4 family (group
source line 48): jump _NDM_SL_FORWARD → _NDM_SL_PROTECT on the group's
interface, constrained by `-m state --state NEW`. -/
def fixProtectRule4 (iface : String) : FwRule :=
  ("filter", "_NDM_SL_FORWARD",
    ["-o", iface, "-m", "state", "--state", "NEW", "-j", "_NDM_SL_PROTECT"])

/-- The fix-protect rule Group.Enable appends on the v6 family (group
source line 52): the same jump constrained only by `-o <iface>`, with
no state match. -/
def fixProtectRule6 (iface : String) : FwRule :=
  ("filter", "_NDM_SL_FORWARD", ["-o", iface, "-j", "_NDM_SL_PROTECT"])

/-- The flag state of one group as Group.Enable / Group.Disable /
Group.NetfilterDHook read it: interface name, FixProtect, and the
runtime `enabled` flag. -/
structure GroupFw where
  iface : String
  fixProtect : Bool
  enabled : Bool
deriving DecidableEq, Repr

/-- Group.Enable (group source lines 37-66) restricted to the
fix-protect assertions: a no-op when already enabled; otherwise, when
FixProtect is set, `fixProtectRule4` is appended on v4 and
`fixProtectRule6` on v6, and the group becomes enabled. (The
ipsetToLink.Enable call touches the mangle table and routing only —
its package is absent from the source files — and is outside this
model's filter-table scope.) -/
def groupEnable (g : GroupFw) (fw : FwState) : GroupFw × FwState :=
  if g.enabled then (g, fw)
  else
    let fw1 :=
      if g.fixProtect then
        { fw with
          v4 := appendUnique fw.v4 (fixProtectRule4 g.iface)
          v6 := appendUnique fw.v6 (fixProtectRule6 g.iface) }
      else fw
    ({ g with enabled := true }, fw1)

/-- Group.Disable (group source lines 68-94) restricted to the
fix-protect assertions: a no-op when not enabled; otherwise, when
FixProtect is set, both fix-protect rules are deleted, and the group
becomes disabled. -/
def groupDisable (g : GroupFw) (fw : FwState) : GroupFw × FwState :=
  if !g.enabled then (g, fw)
  else
    let fw1 :=
      if g.fixProtect then
        { fw with
          v4 := deleteRule fw.v4 (fixProtectRule4 g.iface)
          v6 := deleteRule fw.v6 (fixProtectRule6 g.iface) }
      else fw
    ({ g with enabled := false }, fw1)

/-- Group.NetfilterDHook (group source lines 182-199) restricted to the
fix-protect assertions: when the group is enabled with FixProtect and
the flushed table is "filter", the v4 rule is re-appended for iptType
"" or "iptables", and — exactly as the source line 191 spells it — the
rule WITH the `-m state --state NEW` arguments (the v4 form) is
appended on IPTables6 for iptType "" or "ip6tables". -/
def groupNetfilterDHook (g : GroupFw) (fw : FwState) (iptType tbl : String) :
    FwState :=
  if g.enabled && g.fixProtect && (tbl == "filter") then
    let fw1 :=
      if iptType == "" || iptType == "iptables" then
        { fw with v4 := appendUnique fw.v4 (fixProtectRule4 g.iface) }
      else fw
    if iptType == "" || iptType == "ip6tables" then
      { fw1 with v6 := appendUnique fw1.v6 (fixProtectRule4 g.iface) }
    else fw1
  else fw

/-- models.Rule reduced to the field App.AddGroup inspects: the rule
ID ([4]byte, rendered as a Nat). -/
structure RuleModel where
  id : Nat
deriving DecidableEq, Repr

/-- models.Group as App.AddGroup and App.ImportConfig consume it. -/
structure GroupModel where
  id : Nat
  rules : List RuleModel
deriving DecidableEq, Repr

/-- The sentinel errors of magitrickle.go lines 25-29. -/
inductive AppError where
  | groupIDConflict
  | ruleIDConflict
  | configUnsupportedVersion
deriving DecidableEq, Repr

/-- Duplicate scan of App.AddGroup lines 334-340: the Go code walks the
rules keeping a set of seen ids and fails at the first id already seen;
equivalently, some id occurs again later in the list. -/
def hasDupIDs : List Nat → Bool
  | [] => false
  | x :: xs => xs.contains x || hasDupIDs xs

/-- App.AddGroup (magitrickle.go lines 328-354) up to the group-object
construction: a group whose id equals an existing group's id is
rejected with ErrGroupIDConflict; then a group with two rules sharing
an id is rejected with ErrRuleIDConflict; only then is the group
appended. Both error paths return before `a.groups` is touched. -/
def addGroup (groups : List GroupModel) (g : GroupModel) :
    Except AppError (List GroupModel) :=
  if groups.any (fun g0 => g0.id == g.id) then Except.error AppError.groupIDConflict
  else if hasDupIDs (g.rules.map (fun r => r.id)) then
    Except.error AppError.ruleIDConflict
  else Except.ok (groups ++ [g])

/-- strings.HasPrefix rendered over the character lists of the two
strings. -/
def hasPref (s p : String) : Bool := p.data.isPrefixOf s.data

/-- models.DNSProxyServer. -/
structure DNSProxyServer where
  address : String
  port : Nat
deriving DecidableEq, Repr

/-- models.DNSProxy. -/
structure DNSProxyCfg where
  host : DNSProxyServer
  upstream : DNSProxyServer
  disableRemap53 : Bool
  disableFakePTR : Bool
deriving DecidableEq, Repr

/-- models.IPTables (source field ChainPrefix). -/
structure IPTablesCfg where
  chainPref : String
deriving DecidableEq, Repr

/-- models.IPSet (source fields TablePrefix, AdditionalTTL). -/
structure IPSetCfg where
  tablePref : String
  additionalTTL : Nat
deriving DecidableEq, Repr

/-- models.Netfilter. -/
structure NetfilterCfg where
  iptables4and6 : IPTablesCfg
  ipset : IPSetCfg
deriving DecidableEq, Repr

/-- models.App: the app configuration. -/
structure AppCfg where
  dnsProxy : DNSProxyCfg
  netfilter : NetfilterCfg
  link : List String
  logLevel : String
deriving DecidableEq, Repr

/-- models.Config: the importable configuration file. -/
structure Config where
  configVersion : String
  app : AppCfg
  groups : List GroupModel
deriving DecidableEq, Repr

/-- App.ImportConfig (magitrickle.go lines 549-579): a config whose
version does not start with "0.1." is rejected with
ErrConfigUnsupportedVersion before any field is touched; otherwise the
non-empty / non-zero fields overwrite the current config (in source
order), the two disable flags and AdditionalTTL overwrite
unconditionally, and the config's groups become the unprocessed group
list. The result pairs the new config with that list. -/
def importConfig (cur : AppCfg) (cfg : Config) :
    Except AppError (AppCfg × List GroupModel) :=
  if !(hasPref cfg.configVersion "0.1.") then
    Except.error AppError.configUnsupportedVersion
  else
    let c := cur
    let c := if cfg.app.dnsProxy.upstream.address != "" then
      { c with dnsProxy := { c.dnsProxy with
          upstream := { c.dnsProxy.upstream with
            address := cfg.app.dnsProxy.upstream.address } } } else c
    let c := if cfg.app.dnsProxy.upstream.port != 0 then
      { c with dnsProxy := { c.dnsProxy with
          upstream := { c.dnsProxy.upstream with
            port := cfg.app.dnsProxy.upstream.port } } } else c
    let c := if cfg.app.dnsProxy.host.address != "" then
      { c with dnsProxy := { c.dnsProxy with
          host := { c.dnsProxy.host with
            address := cfg.app.dnsProxy.host.address } } } else c
    let c := if cfg.app.dnsProxy.host.port != 0 then
      { c with dnsProxy := { c.dnsProxy with
          host := { c.dnsProxy.host with
            port := cfg.app.dnsProxy.host.port } } } else c
    let c := { c with dnsProxy := { c.dnsProxy with
        disableRemap53 := cfg.app.dnsProxy.disableRemap53
        disableFakePTR := cfg.app.dnsProxy.disableFakePTR } }
    let c := if cfg.app.netfilter.iptables4and6.chainPref != "" then
      { c with netfilter := { c.netfilter with
          iptables4and6 := { chainPref := cfg.app.netfilter.iptables4and6.chainPref } } }
      else c
    let c := if cfg.app.netfilter.ipset.tablePref != "" then
      { c with netfilter := { c.netfilter with
          ipset := { c.netfilter.ipset with
            tablePref := cfg.app.netfilter.ipset.tablePref } } } else c
    let c := { c with netfilter := { c.netfilter with
        ipset := { c.netfilter.ipset with
          additionalTTL := cfg.app.netfilter.ipset.additionalTTL } } }
    Except.ok (c, cfg.groups)

/-- dns.Question as the request hook inspects it. -/
structure DNSQuestion where
  name : String
  qtype : Nat
deriving DecidableEq, Repr

/-- dns.TypePTR. -/
def typePTR : Nat := 12

/-- dns.RcodeNameError (NXDOMAIN). -/
def rcodeNameError : Nat := 3

/-- dns.Msg reduced to the header fields and the question section the
request hook reads and writes. -/
structure DNSMsg where
  id : Nat
  response : Bool
  recursionAvailable : Bool
  rcode : Nat
  question : List DNSQuestion
deriving DecidableEq, Repr

/-- The RequestHook closure of App.start (magitrickle.go lines
102-122): when DisableFakePTR is unset and the query carries exactly
one question of type PTR, it returns no replacement request and a
synthetic response (same id, Response and RecursionAvailable set,
Rcode NameError, the request's question section); in every other case
it returns neither. The pair is (replacement request, synthetic
response). -/
def requestHook (disableFakePTR : Bool) (reqMsg : DNSMsg) :
    Option DNSMsg × Option DNSMsg :=
  if disableFakePTR then (none, none)
  else
    match reqMsg.question with
    | [q] =>
      if q.qtype == typePTR then
        (none, some { id := reqMsg.id, response := true,
                      recursionAvailable := true, rcode := rcodeNameError,
                      question := reqMsg.question })
      else (none, none)
    | _ => (none, none)

/-- Modelled from the spec: the DNS MITM proxy (package
dns-mitm-proxy, absent from the source files) "forwards either the
original or replacement request to the configured upstream resolver"
only "if no synthetic response" was returned by the request hook
(spec §4.4), so upstream forwarding happens iff the hook's synthetic
response is absent. -/
def forwardsUpstream (hookResult : Option DNSMsg × Option DNSMsg) : Bool :=
  hookResult.2.isNone

/-- The dnsOverrider handle (netfilterHelper.PortRemap); only its
presence matters to the control-socket handler. -/
structure PortRemapModel where
  chainNamePart : String
deriving DecidableEq, Repr

/-- The dnsOverrider assignment of App.start (magitrickle.go lines
188-195): the PortRemap handle is created and stored only when
DisableRemap53 is unset; otherwise the field keeps its zero value
(nil). -/
def startDNSOverride (disableRemap53 : Bool) : Option PortRemapModel :=
  if !disableRemap53 then some { chainNamePart := "DNSOR" } else none

/-- strings.Split(msg, ":") for the one-character separator, rendered
over the character list (helper for splitColon). -/
def splitColonAux : List Char → List Char → List String
  | [], acc => [String.mk acc.reverse]
  | c :: rest, acc =>
    if c == ':' then String.mk acc.reverse :: splitColonAux rest []
    else splitColonAux rest (c :: acc)

/-- strings.Split(msg, ":"). -/
def splitColon (s : String) : List String := splitColonAux s.data []

/-- The control-socket connection handler of App.start (magitrickle.go
lines 250-273): the read buffer is split on ":"; when exactly three
fields arrive and the first is "netfilter.d", the handler invokes
`a.dnsOverrider.NetfilterDHook(args[1], args[2])` unconditionally and
then every group's hook. PortRemap.NetfilterDHook is absent from the
source files and — modelled from the spec (§4.1, the port-remap
primitive owns its prefix chain) — reads its receiver, so the call
dereferences nil when no overrider was installed: that case is `none`.
`some true` means the hooks ran, `some false` that the message was
ignored. -/
def handleSocketMessage (dnsOverrider : Option PortRemapModel) (msg : String) :
    Option Bool :=
  let args := splitColon msg
  if args.length == 3 && (args.headD "" == "netfilter.d") then
    match dnsOverrider with
    | none => none
    | some _ => some true
  else some false

/-- DefaultAppConfig of magitrickle.go lines 31-49. -/
def defaultAppConfig : AppCfg :=
  { dnsProxy :=
      { host := { address := "[::]", port := 3553 }
        upstream := { address := "127.0.0.1", port := 53 }
        disableRemap53 := false
        disableFakePTR := false }
    netfilter :=
      { iptables4and6 := { chainPref := "MT_" }
        ipset := { tablePref := "mt_", additionalTTL := 3600 } }
    link := ["br0"]
    logLevel := "info" }

end Magitrickle

namespace RuleComposer

/-- A record store whose CNAME links form a two-element cycle
a.cdn → b.cdn → a.cdn, both entries far from expiry at time 0; the A
map is empty. -/
def cycStore : Records :=
  { aRecords := fun _ _ => none
    cnameRecords := fun n =>
      if n == "a.cdn" then [("b.cdn", 10)]
      else if n == "b.cdn" then [("a.cdn", 10)] else [] }

/-- Unfolding equation of getCNamesFuel at positive fuel in recursive
mode. -/
theorem getCNamesFuel_succ (fuel : Nat) (r : Records) (now : Int) (d : Magitrickle.DName) :
    getCNamesFuel (fuel + 1) r now d true =
      (((r.cnameRecords d).filter (fun p => decide (now - p.2 ≤ 0))).map Prod.fst).foldl
        (fun acc c =>
          match acc, getCNamesFuel fuel r now c true with
          | some l, some l2 => some (l ++ l2)
          | _, _ => none)
        (some (((r.cnameRecords d).filter
          (fun p => decide (now - p.2 ≤ 0))).map Prod.fst)) := rfl

/-- C4: the claim says the transitive CNAME walk of the records store
terminates on cyclic stores with every visited name recorded and not
revisited. The source Records.getCNames keeps no visited set, so on
the two-element cycle of `cycStore` the recursion of
`getCNamesFuel` never returns within any depth bound: the source
function diverges, contradicting the claim (and spec P3). -/
theorem getCNames_cycle_diverges :
    ∀ fuel : Nat,
      getCNamesFuel fuel cycStore 0 "a.cdn" true = none ∧
      getCNamesFuel fuel cycStore 0 "b.cdn" true = none := by
  intro fuel
  induction fuel with
  | zero => exact ⟨rfl, rfl⟩
  | succ n ih =>
    constructor
    · rw [getCNamesFuel_succ]
      rw [show ((cycStore.cnameRecords "a.cdn").filter
          (fun p => decide ((0 : Int) - p.2 ≤ 0))).map Prod.fst = ["b.cdn"] from by decide]
      simp only [List.foldl_cons, List.foldl_nil]
      rw [ih.2]
    · rw [getCNamesFuel_succ]
      rw [show ((cycStore.cnameRecords "b.cdn").filter
          (fun p => decide ((0 : Int) - p.2 ≤ 0))).map Prod.fst = ["a.cdn"] from by decide]
      simp only [List.foldl_cons, List.foldl_nil]
      rw [ih.1]

/-- C6 (counterexample): the claim says that after two puts for the
same (name, addr) with TTLs t1 < t2, in either order, the stored
deadline is now + t2. Records.PutARecord overwrites unconditionally,
so putting t2 = 2 and then t1 = 1 (both at now = 0) leaves deadline
1, not 2. -/
theorem putARecord_not_later_wins :
    (PutARecord
        (PutARecord ⟨fun _ _ => none, fun _ => []⟩ 0 "example.com" "ip" 2)
        0 "example.com" "ip" 1).aRecords "example.com" "ip" = some 1 ∧
      some (1 : Int) ≠ some (0 + 2 : Int) := by
  exact ⟨by decide, by decide⟩

/-- C6 (amended): Records.PutARecord overwrites the stored deadline
unconditionally, so after any sequence of puts the deadline for
(name, addr) is now + ttl of the most recent put — last-wins; the
claimed later-wins outcome now + t2 is obtained only when the larger
TTL arrives last. -/
theorem putARecord_last_wins (r : Records) (now : Int) (n : Magitrickle.DName)
    (a : Magitrickle.Addr) (t : Int) :
    (PutARecord r now n a t).aRecords n a = some (now + t) := by
  simp [PutARecord]

end RuleComposer

namespace Magitrickle

/-- If some enabled rule of the list matches some name of `names`,
the break-style rule walk issues the AddIP operation. -/
theorem groupAddOpsBreak_mem (gid : Nat) (addr : Addr) (ttl : Nat)
    (names : List DName) :
    ∀ rules : List Rule,
      (∃ r ∈ rules, r.isEnabled = true ∧ ∃ n ∈ names, r.isMatch n = true) →
      EngineOp.addIP gid addr ttl ∈ groupAddOpsBreak gid addr ttl names rules := by
  intro rules hex
  induction rules with
  | nil => rcases hex with ⟨r, hr, _⟩; cases hr
  | cons r0 rest ih =>
    by_cases h0 : (r0.isEnabled && names.any r0.isMatch) = true
    · simp [groupAddOpsBreak, h0]
    · rcases hex with ⟨r, hr, hen, n, hn, hm⟩
      rcases List.mem_cons.mp hr with hq | hq
      · exfalso
        apply h0
        subst hq
        simp only [hen, Bool.true_and]
        exact List.any_eq_true.mpr ⟨n, hn, hm⟩
      · have : EngineOp.addIP gid addr ttl ∈ groupAddOpsBreak gid addr ttl names rest :=
          ih ⟨r, hq, hen, n, hn, hm⟩
        simpa [groupAddOpsBreak, h0] using this

/-- The break-style rule walk of App.processARecord issues at most one
AddIP per group. -/
theorem groupAddOpsBreak_len (gid : Nat) (addr : Addr) (ttl : Nat)
    (names : List DName) :
    ∀ rules : List Rule,
      (groupAddOpsBreak gid addr ttl names rules).length ≤ 1 := by
  intro rules
  induction rules with
  | nil => simp [groupAddOpsBreak]
  | cons r0 rest ih =>
    by_cases h0 : (r0.isEnabled && names.any r0.isMatch) = true
    · simp [groupAddOpsBreak, h0]
    · simpa [groupAddOpsBreak, h0] using ih

/-- C1 (counterexample): the claim says that after an insertion for a
matching enabled rule, "processing moves to the next rule". With one
group holding two enabled always-matching rules, App.processARecord
issues a single AddIP — after the first matching rule it leaves the
rule loop via `break Rule` and moves to the next group — whereas the
walk that moves to the next rule (the spec's wording, as
processARecordNextRule renders it) issues one insertion per matching
rule, i.e. two. -/
theorem processARecord_break_not_next_rule :
    processARecord 3600
        [⟨1, [⟨1, true, fun _ => true⟩, ⟨2, true, fun _ => true⟩]⟩]
        (fun n => [n]) ⟨"example.com.", "ip4", 60⟩ =
      [EngineOp.putA "example.com" "ip4" 3660, EngineOp.addIP 1 "ip4" 3660] ∧
    processARecordNextRule 3600
        [⟨1, [⟨1, true, fun _ => true⟩, ⟨2, true, fun _ => true⟩]⟩]
        (fun n => [n]) ⟨"example.com.", "ip4", 60⟩ =
      [EngineOp.putA "example.com" "ip4" 3660, EngineOp.addIP 1 "ip4" 3660,
        EngineOp.addIP 1 "ip4" 3660] := by
  exact ⟨by decide, by decide⟩

/-- C1 (amended): for every A/AAAA answer whose ttl + additional_ttl
fits in uint32, the engine stores the record with ttl exactly
t + additional_ttl, and for every group having at least one enabled
rule that matches some name in aliases(n), the address is inserted
into that group's IP-set with timeout exactly t + additional_ttl —
but at most once per group: after the first matching rule the walk
moves to the next group, not to the next rule. -/
theorem processARecord_inserts_for_matching_groups
    (additionalTTL : Nat) (groups : List Group) (getAliases : DName → List DName)
    (rr : ARecordRR) (hfit : rr.ttl + additionalTTL < U32) :
    EngineOp.putA (stripDot rr.name) rr.addr (rr.ttl + additionalTTL) ∈
        processARecord additionalTTL groups getAliases rr ∧
    (∀ g ∈ groups,
      (∃ r ∈ g.rules, r.isEnabled = true ∧
          ∃ n ∈ getAliases (stripDot rr.name), r.isMatch n = true) →
      EngineOp.addIP g.id rr.addr (rr.ttl + additionalTTL) ∈
        processARecord additionalTTL groups getAliases rr) ∧
    (∀ g : Group, (groupAddOpsBreak g.id rr.addr (rr.ttl + additionalTTL)
        (getAliases (stripDot rr.name)) g.rules).length ≤ 1) := by
  have hmod : (rr.ttl + additionalTTL) % U32 = rr.ttl + additionalTTL :=
    Nat.mod_eq_of_lt hfit
  refine ⟨?_, ?_, ?_⟩
  · simp only [processARecord, hmod]
    exact List.mem_cons_self _ _
  · intro g hg hex
    simp only [processARecord, hmod]
    refine List.mem_cons_of_mem _ (List.mem_flatten.mpr
      ⟨groupAddOpsBreak g.id rr.addr (rr.ttl + additionalTTL)
        (getAliases (stripDot rr.name)) g.rules,
       List.mem_map.mpr ⟨g, hg, rfl⟩, ?_⟩)
    exact groupAddOpsBreak_mem _ _ _ _ _ hex
  · intro g
    exact groupAddOpsBreak_len _ _ _ _ _

/-- C1 witness: the spec's simple-A scenario — a rule matching
example.com, answer `example.com. A ip4 TTL 60`, additional_ttl 3600:
the record is stored with ttl 3660 and the address inserted into the
group's set with timeout 3660. -/
theorem processARecord_inserts_witness :
    60 + 3600 < U32 ∧
    EngineOp.putA (stripDot "example.com.") "ip4" (60 + 3600) ∈
      processARecord 3600 [⟨1, [⟨1, true, fun n => n == "example.com"⟩]⟩]
        (fun n => [n]) ⟨"example.com.", "ip4", 60⟩ ∧
    EngineOp.addIP 1 "ip4" (60 + 3600) ∈
      processARecord 3600 [⟨1, [⟨1, true, fun n => n == "example.com"⟩]⟩]
        (fun n => [n]) ⟨"example.com.", "ip4", 60⟩ := by
  have h := processARecord_inserts_for_matching_groups 3600
    [⟨1, [⟨1, true, fun n => n == "example.com"⟩]⟩] (fun n => [n])
    ⟨"example.com.", "ip4", 60⟩ (by decide)
  refine ⟨by decide, h.1, h.2.1 _ (List.mem_cons_self _ _) ?_⟩
  exact ⟨⟨1, true, fun n => n == "example.com"⟩, List.mem_cons_self _ _, rfl,
    "example.com", by decide, by decide⟩

/-- C2: the claim says the timeout of each address re-inserted on
CNAME processing is approximately the record's remaining TTL plus
additional_ttl (≈ 3630 s in the spec's scenario). The code computes
`uint32(now.Sub(aRecord.Deadline).Seconds())` — now − deadline, which
is −3630 for the live record and wraps to 2^32 − 3630 = 4294963666 —
while storing the CNAME link itself correctly with ttl 30 + 3600. The
code contradicts the spec's expected ≈ 3630 s timeout: a slip the
spec itself flags (§9) for the same expression in Sync. -/
theorem processCNameRecord_wrapped_timeout_bug :
    processCNameRecord 3600 [⟨7, [⟨1, true, fun n => n == "svc.corp"⟩]⟩]
        (fun n => [n]) (fun _ => [⟨"ip1", 4630⟩]) 1000 ⟨"svc.corp.", "a.cdn.", 30⟩ =
      [EngineOp.putCName "svc.corp" "a.cdn" 3630,
        EngineOp.addIP 7 "ip1" 4294963666] ∧
      4294963666 = U32 - 3630 ∧ (4294963666 : Nat) ≠ 3630 := by
  exact ⟨by decide, by decide, by decide⟩

/-- C3: the claim says Sync's desired map stores each collected
address's remaining TTL (deadline − now) and keeps the TTL of the
later deadline on duplicates. The code stores
`uint32(now.Sub(deadline).Seconds())` = now − deadline wrapped to
uint32, and its larger-wins comparison on those wrapped values keeps
the EARLIER deadline: with now = 1000 and deadlines 1100 and 1200 for
the same address, the map holds 2^32 − 100 (earlier deadline,
wrapped), not the remaining TTL 200 of the later deadline (nor 100). -/
theorem sync_desired_ttl_bug :
    desiredAddresses ⟨1, [⟨1, true, fun n => n == "example.com"⟩]⟩
        ["example.com"] (fun _ => [⟨"ip1", 1100⟩, ⟨"ip1", 1200⟩]) 1000 =
      [("ip1", U32 - 100)] ∧ U32 - 100 ≠ 200 ∧ U32 - 100 ≠ 100 := by
  exact ⟨by decide, by decide, by decide⟩

/-- C7: the claim says the rules NetfilterDHook re-asserts after an
external flush equal the ones Enable installed, the v6 rule carrying
no `--state NEW`. Enable appends `fixProtectRule6` (no state match) on
v6, but NetfilterDHook's ip6tables branch (group source line 191)
appends the v4-form rule WITH `-m state --state NEW` on IPTables6: on
an enabled fix-protect group, after an external flush of the filter
table, the hook for ("ip6tables", "filter") leaves only the v4-form
rule in v6 and the originally installed rule stays absent. -/
theorem netfilterDHook_v6_rule_mismatch :
    (groupEnable ⟨"eth3", true, false⟩ ⟨[], []⟩).2.v6 = [fixProtectRule6 "eth3"] ∧
    groupNetfilterDHook ⟨"eth3", true, true⟩ ⟨[], []⟩ "ip6tables" "filter" =
      ⟨[], [fixProtectRule4 "eth3"]⟩ ∧
    fixProtectRule6 "eth3" ∉
      (groupNetfilterDHook ⟨"eth3", true, true⟩ ⟨[], []⟩ "ip6tables" "filter").v6 ∧
    fixProtectRule4 "eth3" ≠ fixProtectRule6 "eth3" := by
  exact ⟨by decide, by decide, by decide, by decide⟩

/-- C8: config-invalid mutations are rejected with their designated
errors without touching state: a version not starting with "0.1."
makes importConfig fail with configUnsupportedVersion (no merged
config is produced); a group id equal to an existing one makes
addGroup fail with groupIDConflict; with no id conflict, duplicate
rule ids make addGroup fail with ruleIDConflict — each error returned
before the group list is extended. -/
theorem config_invalid_rejected :
    (∀ (cur : AppCfg) (cfg : Config), hasPref cfg.configVersion "0.1." = false →
        importConfig cur cfg = Except.error AppError.configUnsupportedVersion) ∧
    (∀ (groups : List GroupModel) (g g0 : GroupModel), g0 ∈ groups → g0.id = g.id →
        addGroup groups g = Except.error AppError.groupIDConflict) ∧
    (∀ (groups : List GroupModel) (g : GroupModel), (∀ g0 ∈ groups, g0.id ≠ g.id) →
        hasDupIDs (g.rules.map (fun r => r.id)) = true →
        addGroup groups g = Except.error AppError.ruleIDConflict) := by
  refine ⟨?_, ?_, ?_⟩
  · intro cur cfg h
    simp [importConfig, h]
  · intro groups g g0 hmem hid
    have hany : groups.any (fun g1 => g1.id == g.id) = true :=
      List.any_eq_true.mpr ⟨g0, hmem, by simp [hid]⟩
    simp [addGroup, hany]
  · intro groups g hno hdup
    have hany : groups.any (fun g1 => g1.id == g.id) = false := by
      by_contra h
      rcases List.any_eq_true.mp (Bool.of_not_eq_false h) with ⟨g0, hmem, hbeq⟩
      exact hno g0 hmem (by simpa using hbeq)
    simp [addGroup, hany, hdup]

/-- C8 witness: the three rejections at concrete inputs — importing a
version "0.2.0" config over the default config, adding group id 5 when
a group with id 5 exists, and adding a group with two rules of id 1. -/
theorem config_invalid_rejected_witness :
    importConfig defaultAppConfig ⟨"0.2.0", defaultAppConfig, []⟩ =
      Except.error AppError.configUnsupportedVersion ∧
    addGroup [⟨5, []⟩] ⟨5, [⟨1⟩, ⟨2⟩]⟩ = Except.error AppError.groupIDConflict ∧
    addGroup [⟨5, []⟩] ⟨6, [⟨1⟩, ⟨1⟩]⟩ = Except.error AppError.ruleIDConflict := by
  refine ⟨?_, ?_, ?_⟩
  · exact config_invalid_rejected.1 defaultAppConfig ⟨"0.2.0", defaultAppConfig, []⟩
      (by decide)
  · exact config_invalid_rejected.2.1 [⟨5, []⟩] ⟨5, [⟨1⟩, ⟨2⟩]⟩ ⟨5, []⟩
      (List.mem_cons_self _ _) (by decide)
  · exact config_invalid_rejected.2.2 [⟨5, []⟩] ⟨6, [⟨1⟩, ⟨1⟩]⟩
      (by decide) (by decide)

/-- C9: with fake-PTR enabled (DisableFakePTR = false) and exactly one
question of type PTR, the request hook returns no replacement request
and a synthetic response carrying the request's id, the NXDOMAIN
rcode and the request's question section, and the proxy does not
forward upstream; in every other case the hook returns neither
message, and forwarding proceeds. -/
theorem requestHook_fakePTR :
    (∀ (req : DNSMsg) (q : DNSQuestion), req.question = [q] → q.qtype = typePTR →
        requestHook false req =
          (none, some { id := req.id, response := true, recursionAvailable := true,
                        rcode := rcodeNameError, question := req.question }) ∧
        forwardsUpstream (requestHook false req) = false) ∧
    (∀ (disable : Bool) (req : DNSMsg),
        (disable = true ∨ ∀ q : DNSQuestion, req.question = [q] → q.qtype ≠ typePTR) →
        requestHook disable req = (none, none) ∧
        forwardsUpstream (requestHook disable req) = true) := by
  constructor
  · intro req q hq hqt
    have h1 : requestHook false req =
        (none, some { id := req.id, response := true, recursionAvailable := true,
                      rcode := rcodeNameError, question := req.question }) := by
      simp [requestHook, hq, hqt]
    exact ⟨h1, by simp [forwardsUpstream, h1]⟩
  · intro disable req hcase
    cases disable with
    | true =>
      have h1 : requestHook true req = (none, none) := by simp [requestHook]
      exact ⟨h1, by simp [forwardsUpstream, h1]⟩
    | false =>
      have hq : ∀ q : DNSQuestion, req.question = [q] → q.qtype ≠ typePTR := by
        cases hcase with
        | inl h => cases h
        | inr h => exact h
      have h1 : requestHook false req = (none, none) := by
        cases hqs : req.question with
        | nil => simp [requestHook, hqs]
        | cons q rest =>
          cases rest with
          | nil =>
            have := hq q hqs
            simp [requestHook, hqs, this]
          | cons q2 rest2 => simp [requestHook, hqs]
      exact ⟨h1, by simp [forwardsUpstream, h1]⟩

/-- C9 witness: the hook applied to a single-PTR query (id 77) with
fake-PTR on yields the NXDOMAIN synthetic response and no upstream
forwarding, and the same query with DisableFakePTR = true yields
neither message and forwards. -/
theorem requestHook_fakePTR_witness :
    (requestHook false ⟨77, false, false, 0, [⟨"4.3.2.1.in-addr.arpa.", 12⟩]⟩ =
      (none, some ⟨77, true, true, 3, [⟨"4.3.2.1.in-addr.arpa.", 12⟩]⟩)) ∧
    (requestHook true ⟨77, false, false, 0, [⟨"4.3.2.1.in-addr.arpa.", 12⟩]⟩ =
      (none, none)) := by
  constructor
  · exact (requestHook_fakePTR.1 ⟨77, false, false, 0, [⟨"4.3.2.1.in-addr.arpa.", 12⟩]⟩
      ⟨"4.3.2.1.in-addr.arpa.", 12⟩ rfl rfl).1
  · exact (requestHook_fakePTR.2 true
      ⟨77, false, false, 0, [⟨"4.3.2.1.in-addr.arpa.", 12⟩]⟩ (Or.inl rfl)).1

/-- C10: after App.start's overrider setup, the dnsOverrider handle is
present exactly when DisableRemap53 is false; the control-socket
handler dereferences it unconditionally on every well-formed
netfilter.d message (three colon-separated fields, first
"netfilter.d"), so on such a message the handler is well-defined iff
the :53 remap is enabled. -/
theorem socketHandler_requires_remap53 :
    (∀ disable : Bool, (startDNSOverride disable).isSome = !disable) ∧
    (∀ (disable : Bool) (msg : String),
        (splitColon msg).length = 3 → (splitColon msg).headD "" = "netfilter.d" →
        ((handleSocketMessage (startDNSOverride disable) msg).isSome ↔
          disable = false)) := by
  constructor
  · intro disable
    cases disable <;> simp [startDNSOverride]
  · intro disable msg hlen hhead
    have hhead2 : (splitColon msg).head?.getD "" = "netfilter.d" := by
      cases hsp : splitColon msg with
      | nil => rw [hsp] at hlen; simp at hlen
      | cons a l => rw [hsp] at hhead; simpa using hhead
    cases disable <;> simp [handleSocketMessage, startDNSOverride, hlen, hhead2]

/-- C10 witness: on the well-formed message "netfilter.d:iptables:mangle"
the handler is defined when remap is enabled and dereferences nil (is
undefined) when DisableRemap53 = true. -/
theorem socketHandler_requires_remap53_witness :
    ((handleSocketMessage (startDNSOverride false)
        "netfilter.d:iptables:mangle").isSome ↔ False = false) ∧
    ((handleSocketMessage (startDNSOverride true)
        "netfilter.d:iptables:mangle").isSome ↔ True = false) := by
  constructor
  · exact (socketHandler_requires_remap53.2 false "netfilter.d:iptables:mangle"
      (by decide) (by decide)).trans (by simp)
  · exact (socketHandler_requires_remap53.2 true "netfilter.d:iptables:mangle"
      (by decide) (by decide)).trans (by simp)

theorem beq_false_of_ne {a b : Addr} (h : ¬a = b) : (a == b) = false := by
  cases hv : a == b
  · rfl
  · exact absurd (beq_iff_eq.mp hv) h

theorem find?key_cons_pos {β : Type} (p : Addr × β) (l : List (Addr × β)) (a : Addr)
    (h : (p.1 == a) = true) :
    List.find? (fun q => q.1 == a) (p :: l) = some p :=
  List.find?_cons_of_pos _ h

theorem find?key_cons_neg {β : Type} (p : Addr × β) (l : List (Addr × β)) (a : Addr)
    (h : (p.1 == a) = false) :
    List.find? (fun q => q.1 == a) (p :: l) = List.find? (fun q => q.1 == a) l :=
  List.find?_cons_of_neg _ (by simp [h])

theorem lookupIP_cons_pos (p : Addr × Option Nat) (l : IPSetState) (a : Addr)
    (h : (p.1 == a) = true) : lookupIP (p :: l) a = some p.2 := by
  unfold lookupIP
  rw [find?key_cons_pos p l a h]
  rfl

theorem lookupIP_cons_neg (p : Addr × Option Nat) (l : IPSetState) (a : Addr)
    (h : (p.1 == a) = false) : lookupIP (p :: l) a = lookupIP l a := by
  unfold lookupIP
  rw [find?key_cons_neg p l a h]

theorem lookupIP_map_ne (a b : Addr) (v : Option Nat) (hne : ¬a = b) :
    ∀ st : IPSetState,
      lookupIP (st.map fun p => if p.1 == a then (a, v) else p) b = lookupIP st b := by
  intro st
  induction st with
  | nil => rfl
  | cons p l ih =>
    by_cases hpa : (p.1 == a) = true
    · have hp1 : p.1 = a := beq_iff_eq.mp hpa
      have hpb : (p.1 == b) = false := by rw [hp1]; exact beq_false_of_ne hne
      simp only [List.map_cons, if_pos hpa]
      rw [lookupIP_cons_neg (a, v) _ b (beq_false_of_ne hne),
        lookupIP_cons_neg p _ b hpb]
      exact ih
    · have hpa2 : (p.1 == a) = false := by
        cases hv : p.1 == a
        · rfl
        · exact absurd hv hpa
      simp only [List.map_cons, if_neg hpa]
      by_cases hpb : (p.1 == b) = true
      · rw [lookupIP_cons_pos p _ b hpb, lookupIP_cons_pos p _ b hpb]
      · have hpb2 : (p.1 == b) = false := by
          cases hv : p.1 == b
          · rfl
          · exact absurd hv hpb
        rw [lookupIP_cons_neg p _ b hpb2, lookupIP_cons_neg p _ b hpb2]
        exact ih

theorem lookupIP_append_ne (a b : Addr) (v : Option Nat) (hne : ¬a = b) :
    ∀ st : IPSetState, lookupIP (st ++ [(a, v)]) b = lookupIP st b := by
  intro st
  induction st with
  | nil =>
    show lookupIP [(a, v)] b = lookupIP [] b
    rw [lookupIP_cons_neg (a, v) [] b (beq_false_of_ne hne)]
  | cons p l ih =>
    rw [List.cons_append]
    by_cases hpb : (p.1 == b) = true
    · rw [lookupIP_cons_pos p _ b hpb, lookupIP_cons_pos p _ b hpb]
    · have hpb2 : (p.1 == b) = false := by
        cases hv : p.1 == b
        · rfl
        · exact absurd hv hpb
      rw [lookupIP_cons_neg p _ b hpb2, lookupIP_cons_neg p _ b hpb2]
      exact ih

theorem lookupIP_map_update (a : Addr) (v : Option Nat) :
    ∀ st : IPSetState, (st.find? fun p => p.1 == a).isSome = true →
      lookupIP (st.map fun p => if p.1 == a then (a, v) else p) a = some v := by
  intro st
  induction st with
  | nil => intro h; simp [List.find?] at h
  | cons p l ih =>
    intro h
    by_cases hp : (p.1 == a) = true
    · simp only [List.map_cons, if_pos hp]
      exact lookupIP_cons_pos (a, v) _ a (by simp)
    · have hneg : (p.1 == a) = false := by
        cases hv : p.1 == a
        · rfl
        · exact absurd hv hp
      simp only [List.map_cons, if_neg hp]
      rw [lookupIP_cons_neg p _ a hneg]
      apply ih
      rw [find?key_cons_neg p l a hneg] at h
      exact h

theorem lookupIP_append_one (a : Addr) (v : Option Nat) :
    ∀ st : IPSetState, (st.find? fun p => p.1 == a) = none →
      lookupIP (st ++ [(a, v)]) a = some v := by
  intro st
  induction st with
  | nil =>
    intro _
    exact lookupIP_cons_pos (a, v) [] a (by simp)
  | cons p l ih =>
    intro h
    have hneg : (p.1 == a) = false := by
      cases hv : p.1 == a
      · rfl
      · rw [find?key_cons_pos p l a hv] at h; cases h
    rw [find?key_cons_neg p l a hneg] at h
    rw [List.cons_append, lookupIP_cons_neg p _ a hneg]
    exact ih h

theorem lookupIP_setIP_self (st : IPSetState) (a : Addr) (v : Option Nat) :
    lookupIP (setIP st a v) a = some v := by
  unfold setIP
  cases hf : st.find? fun p => p.1 == a with
  | none =>
    simp only [hf, Option.isSome_none, Bool.false_eq_true, if_false]
    exact lookupIP_append_one a v st hf
  | some q =>
    simp only [hf, Option.isSome_some, if_true]
    exact lookupIP_map_update a v st (by rw [hf]; rfl)

theorem lookupIP_setIP_ne (st : IPSetState) (a b : Addr) (v : Option Nat)
    (hne : ¬a = b) : lookupIP (setIP st a v) b = lookupIP st b := by
  unfold setIP
  by_cases hf : (st.find? fun p => p.1 == a).isSome = true
  · rw [if_pos hf]
    exact lookupIP_map_ne a b v hne st
  · rw [if_neg hf]
    exact lookupIP_append_ne a b v hne st

theorem mem_setIP (st : IPSetState) (a : Addr) (v : Option Nat)
    (q : Addr × Option Nat) (hq : q ∈ setIP st a v) : q = (a, v) ∨ q ∈ st := by
  unfold setIP at hq
  by_cases hf : (st.find? fun p => p.1 == a).isSome = true
  · rw [if_pos hf] at hq
    rcases List.mem_map.mp hq with ⟨p, hp, hfq⟩
    by_cases hpa : (p.1 == a) = true
    · rw [if_pos hpa] at hfq; exact Or.inl hfq.symm
    · rw [if_neg hpa] at hfq; exact Or.inr (hfq ▸ hp)
  · rw [if_neg hf] at hq
    rcases List.mem_append.mp hq with h | h
    · exact Or.inr h
    · exact Or.inl (List.mem_singleton.mp h)

theorem mem_delIP (st : IPSetState) (a : Addr) (q : Addr × Option Nat)
    (hq : q ∈ delIP st a) : q ∈ st ∧ (q.1 == a) = false := by
  have h := List.mem_filter.mp hq
  exact ⟨h.1, by simpa using h.2⟩

theorem lookupIP_delIP_ne (st : IPSetState) (a b : Addr) (hne : ¬a = b) :
    lookupIP (delIP st a) b = lookupIP st b := by
  induction st with
  | nil => rfl
  | cons p l ih =>
    by_cases hpa : (p.1 == a) = true
    · have hp1 : p.1 = a := beq_iff_eq.mp hpa
      have hpb : (p.1 == b) = false := by
        rw [hp1]; exact beq_false_of_ne hne
      have hstep : delIP (p :: l) a = delIP l a := by
        simp [delIP, List.filter, hpa]
      rw [hstep]
      rw [lookupIP_cons_neg p l b hpb]
      exact ih
    · have hpa2 : (p.1 == a) = false := by
        cases hv : p.1 == a
        · rfl
        · exact absurd hv hpa
      have hstep : delIP (p :: l) a = p :: delIP l a := by
        simp [delIP, List.filter, hpa2]
      rw [hstep]
      by_cases hpb : (p.1 == b) = true
      · rw [lookupIP_cons_pos p _ b hpb, lookupIP_cons_pos p _ b hpb]
      · have hpb2 : (p.1 == b) = false := by
          cases hv : p.1 == b
          · rfl
          · exact absurd hv hpb
        rw [lookupIP_cons_neg p _ b hpb2, lookupIP_cons_neg p _ b hpb2]
        exact ih

theorem syncAddOps_cons (p : Addr × Nat) (rest : List (Addr × Nat)) (st : IPSetState) :
    syncAddOps (p :: rest) st =
      (match lookupIP st p.1 with
       | some none => []
       | some (some cur) => if p.2 < cur then [] else [SyncOp.add p.1 p.2]
       | none => [SyncOp.add p.1 p.2]) ++ syncAddOps rest st := rfl

theorem syncDelOps_cons (q : Addr × Option Nat) (rest : IPSetState)
    (desired : List (Addr × Nat)) :
    syncDelOps (q :: rest) desired =
      (if (desired.find? fun p => p.1 == q.1).isSome then []
       else [SyncOp.del q.1]) ++ syncDelOps rest desired := rfl

theorem syncAddOps_congr :
    ∀ (D : List (Addr × Nat)) (st st2 : IPSetState),
      (∀ p ∈ D, lookupIP st p.1 = lookupIP st2 p.1) →
      syncAddOps D st = syncAddOps D st2 := by
  intro D
  induction D with
  | nil => intro st st2 _; rfl
  | cons p rest ih =>
    intro st st2 h
    rw [syncAddOps_cons, syncAddOps_cons, h p (List.mem_cons_self _ _),
      ih st st2 (fun q hq => h q (List.mem_cons_of_mem _ hq))]

theorem foldl_preserve {α β : Type} (P : β → Prop) {f : β → α → β}
    (hf : ∀ b x, P b → P (f b x)) :
    ∀ (l : List α) (b : β), P b → P (l.foldl f b) := by
  intro l
  induction l with
  | nil => intro b hb; exact hb
  | cons x xs ih => intro b hb; exact ih (f b x) (hf b x hb)

theorem find?key_none_of_all {β : Type} (D : List (Addr × β)) (a : Addr)
    (h : ∀ p ∈ D, (p.1 == a) = false) :
    D.find? (fun p => p.1 == a) = none :=
  List.find?_eq_none.mpr (fun x hx => by simp [h x hx])

theorem find?key_of_nodup_mem {β : Type} :
    ∀ (D : List (Addr × β)), (D.map Prod.fst).Nodup →
      ∀ p ∈ D, D.find? (fun x => x.1 == p.1) = some p := by
  intro D
  induction D with
  | nil => intro _ p hp; cases hp
  | cons q rest ih =>
    intro hnd p hp
    have hnd2 := hnd
    rw [List.map_cons, List.nodup_cons] at hnd2
    rcases List.mem_cons.mp hp with hq | hq
    · subst hq
      exact find?key_cons_pos p rest p.1 (by simp)
    · have hne : (q.1 == p.1) = false := by
        apply beq_false_of_ne
        intro hqp
        exact hnd2.1 (hqp ▸ List.mem_map.mpr ⟨p, hq, rfl⟩)
      rw [find?key_cons_neg q rest p.1 hne]
      exact ih hnd2.2 p hq

theorem insertDesired_nodup (m : List (Addr × Nat)) (a : Addr) (t : Nat)
    (h : (m.map Prod.fst).Nodup) :
    ((insertDesired m a t).map Prod.fst).Nodup := by
  cases hf : m.find? (fun p => p.1 == a) with
  | none =>
    have hrw : insertDesired m a t = m ++ [(a, t)] := by
      unfold insertDesired
      rw [hf]
    have ha : a ∉ m.map Prod.fst := by
      intro hmem
      rcases List.mem_map.mp hmem with ⟨p, hp, hpa⟩
      have hfalse := List.find?_eq_none.mp hf p hp
      apply hfalse
      rw [hpa]
      simp
    rw [hrw, List.map_append, List.nodup_append]
    refine ⟨h, List.nodup_singleton a, ?_⟩
    intro x hx hx2
    rw [List.mem_singleton.mp hx2] at hx
    exact ha hx
  | some p =>
    by_cases ht : t > p.2
    · have hrw : insertDesired m a t =
          m.map (fun q => if q.1 == a then (a, t) else q) := by
        unfold insertDesired
        rw [hf]
        exact if_pos ht
      rw [hrw]
      have hkeys : (m.map fun q => if q.1 == a then (a, t) else q).map Prod.fst =
          m.map Prod.fst := by
        rw [List.map_map]
        apply List.map_congr_left
        intro q hq
        by_cases hqa : (q.1 == a) = true
        · simp only [Function.comp, if_pos hqa]
          exact (beq_iff_eq.mp hqa).symm
        · simp only [Function.comp, if_neg hqa]
      rw [hkeys]
      exact h
    · have hrw : insertDesired m a t = m := by
        unfold insertDesired
        rw [hf]
        exact if_neg ht
      rw [hrw]
      exact h

theorem desired_keys_nodup (g : Group) (kd : List DName)
    (getA : DName → List ARecordEntry) (now : Int) :
    ((desiredAddresses g kd getA now).map Prod.fst).Nodup := by
  unfold desiredAddresses
  refine foldl_preserve (fun m : List (Addr × Nat) => (m.map Prod.fst).Nodup) ?_
    g.rules [] List.nodup_nil
  intro m r hm
  by_cases hr : r.isEnabled = true
  · rw [if_pos hr]
    refine foldl_preserve (fun m1 : List (Addr × Nat) => (m1.map Prod.fst).Nodup) ?_
      kd m hm
    intro m1 d hm1
    by_cases hd : r.isMatch d = true
    · rw [if_pos hd]
      refine foldl_preserve (fun m2 : List (Addr × Nat) => (m2.map Prod.fst).Nodup) ?_
        (getA d) m1 hm1
      intro m2 e hm2
      exact insertDesired_nodup m2 e.address (wrapTTL now e.deadline) hm2
    · rw [if_neg hd]
      exact hm1
  · rw [if_neg hr]
    exact hm

theorem syncAddOps_cons_skipnil (p : Addr × Nat) (rest : List (Addr × Nat))
    (st : IPSetState) (h : lookupIP st p.1 = some none) :
    syncAddOps (p :: rest) st = syncAddOps rest st := by
  rw [syncAddOps_cons, h]
  rfl

theorem syncAddOps_cons_keep (p : Addr × Nat) (rest : List (Addr × Nat))
    (st : IPSetState) (cur : Nat) (h : lookupIP st p.1 = some (some cur))
    (hlt : p.2 < cur) :
    syncAddOps (p :: rest) st = syncAddOps rest st := by
  rw [syncAddOps_cons, h]
  show (if p.2 < cur then ([] : List SyncOp) else [SyncOp.add p.1 p.2]) ++
    syncAddOps rest st = _
  rw [if_pos hlt]
  rfl

theorem syncAddOps_cons_add_none (p : Addr × Nat) (rest : List (Addr × Nat))
    (st : IPSetState) (h : lookupIP st p.1 = none) :
    syncAddOps (p :: rest) st = SyncOp.add p.1 p.2 :: syncAddOps rest st := by
  rw [syncAddOps_cons, h]
  rfl

theorem syncAddOps_cons_add_ge (p : Addr × Nat) (rest : List (Addr × Nat))
    (st : IPSetState) (cur : Nat) (h : lookupIP st p.1 = some (some cur))
    (hge : ¬p.2 < cur) :
    syncAddOps (p :: rest) st = SyncOp.add p.1 p.2 :: syncAddOps rest st := by
  rw [syncAddOps_cons, h]
  show (if p.2 < cur then ([] : List SyncOp) else [SyncOp.add p.1 p.2]) ++
    syncAddOps rest st = _
  rw [if_neg hge]
  rfl

theorem addPhase_lookup :
    ∀ (D : List (Addr × Nat)) (st : IPSetState) (a : Addr),
      (D.map Prod.fst).Nodup →
      lookupIP ((syncAddOps D st).foldl applySyncOp st) a =
        (match D.find? (fun p => p.1 == a) with
         | some p => mergeLook (lookupIP st a) p.2
         | none => lookupIP st a) := by
  intro D
  induction D with
  | nil => intro st a _; rfl
  | cons p rest ih =>
    intro st a hnd
    rw [List.map_cons, List.nodup_cons] at hnd
    obtain ⟨hpnotin, hndrest⟩ := hnd
    have hne_rest : ∀ q ∈ rest, ¬p.1 = q.1 := by
      intro q hq he
      exact hpnotin (he ▸ List.mem_map.mpr ⟨q, hq, rfl⟩)
    have hcongr : syncAddOps rest st = syncAddOps rest (setIP st p.1 (some p.2)) :=
      syncAddOps_congr rest st _ (fun q hq =>
        (lookupIP_setIP_ne st p.1 q.1 (some p.2) (hne_rest q hq)).symm)
    by_cases hpa : (p.1 == a) = true
    · -- head key is a
      have ha : p.1 = a := beq_iff_eq.mp hpa
      have hrest_none : rest.find? (fun x => x.1 == a) = none := by
        apply find?key_none_of_all
        intro q hq
        exact beq_false_of_ne (fun he => hne_rest q hq (ha ▸ he.symm ▸ rfl))
      rw [find?key_cons_pos p rest a hpa]
      cases hl : lookupIP st p.1 with
      | none =>
        rw [syncAddOps_cons_add_none p rest st hl, List.foldl_cons]
        show lookupIP ((syncAddOps rest st).foldl applySyncOp
          (setIP st p.1 (some p.2))) a = mergeLook (lookupIP st a) p.2
        rw [hcongr, ih (setIP st p.1 (some p.2)) a hndrest, hrest_none]
        show lookupIP (setIP st p.1 (some p.2)) a = mergeLook (lookupIP st a) p.2
        rw [ha] at hl ⊢
        rw [lookupIP_setIP_self st a (some p.2), hl]
        rfl
      | some ov =>
        cases ov with
        | none =>
          rw [syncAddOps_cons_skipnil p rest st hl, ih st a hndrest, hrest_none]
          show lookupIP st a = mergeLook (lookupIP st a) p.2
          rw [ha] at hl
          rw [hl]
          rfl
        | some cur =>
          by_cases hc : p.2 < cur
          · rw [syncAddOps_cons_keep p rest st cur hl hc,
              ih st a hndrest, hrest_none]
            show lookupIP st a = mergeLook (lookupIP st a) p.2
            rw [ha] at hl
            rw [hl]
            show some (some cur) = if p.2 < cur then some (some cur) else some (some p.2)
            rw [if_pos hc]
          · rw [syncAddOps_cons_add_ge p rest st cur hl hc, List.foldl_cons]
            show lookupIP ((syncAddOps rest st).foldl applySyncOp
              (setIP st p.1 (some p.2))) a = mergeLook (lookupIP st a) p.2
            rw [hcongr, ih (setIP st p.1 (some p.2)) a hndrest, hrest_none]
            show lookupIP (setIP st p.1 (some p.2)) a = mergeLook (lookupIP st a) p.2
            rw [ha] at hl ⊢
            rw [lookupIP_setIP_self st a (some p.2), hl]
            show some (some p.2) = if p.2 < cur then some (some cur) else some (some p.2)
            rw [if_neg hc]
    · -- head key differs from a
      have hpa2 : (p.1 == a) = false := by
        cases hv : p.1 == a
        · rfl
        · exact absurd hv hpa
      have hne_a : ¬p.1 = a := fun he => by
        rw [he] at hpa2
        simp at hpa2
      rw [find?key_cons_neg p rest a hpa2]
      cases hl : lookupIP st p.1 with
      | none =>
        rw [syncAddOps_cons_add_none p rest st hl, List.foldl_cons]
        show lookupIP ((syncAddOps rest st).foldl applySyncOp
          (setIP st p.1 (some p.2))) a =
          (match rest.find? (fun x => x.1 == a) with
           | some q => mergeLook (lookupIP st a) q.2
           | none => lookupIP st a)
        rw [hcongr, ih (setIP st p.1 (some p.2)) a hndrest]
        simp only [lookupIP_setIP_ne st p.1 a (some p.2) hne_a]
      | some ov =>
        cases ov with
        | none =>
          rw [syncAddOps_cons_skipnil p rest st hl, ih st a hndrest]
        | some cur =>
          by_cases hc : p.2 < cur
          · rw [syncAddOps_cons_keep p rest st cur hl hc, ih st a hndrest]
          · rw [syncAddOps_cons_add_ge p rest st cur hl hc, List.foldl_cons]
            show lookupIP ((syncAddOps rest st).foldl applySyncOp
              (setIP st p.1 (some p.2))) a =
              (match rest.find? (fun x => x.1 == a) with
               | some q => mergeLook (lookupIP st a) q.2
               | none => lookupIP st a)
            rw [hcongr, ih (setIP st p.1 (some p.2)) a hndrest]
            simp only [lookupIP_setIP_ne st p.1 a (some p.2) hne_a]

theorem addPhase_mem :
    ∀ (D : List (Addr × Nat)) (st : IPSetState) (q : Addr × Option Nat),
      (D.map Prod.fst).Nodup →
      q ∈ (syncAddOps D st).foldl applySyncOp st →
      q ∈ st ∨ ∃ p ∈ D, q = (p.1, some p.2) := by
  intro D
  induction D with
  | nil =>
    intro st q _ h
    exact Or.inl h
  | cons p rest ih =>
    intro st q hnd h
    rw [List.map_cons, List.nodup_cons] at hnd
    obtain ⟨hpnotin, hndrest⟩ := hnd
    have hne_rest : ∀ x ∈ rest, ¬p.1 = x.1 := by
      intro x hx he
      exact hpnotin (he ▸ List.mem_map.mpr ⟨x, hx, rfl⟩)
    have hcongr : syncAddOps rest st = syncAddOps rest (setIP st p.1 (some p.2)) :=
      syncAddOps_congr rest st _ (fun x hx =>
        (lookupIP_setIP_ne st p.1 x.1 (some p.2) (hne_rest x hx)).symm)
    cases hl : lookupIP st p.1 with
    | none =>
      rw [syncAddOps_cons_add_none p rest st hl, List.foldl_cons] at h
      have h2 : q ∈ (syncAddOps rest (setIP st p.1 (some p.2))).foldl applySyncOp
          (setIP st p.1 (some p.2)) := by
        rw [← hcongr]
        exact h
      rcases ih (setIP st p.1 (some p.2)) q hndrest h2 with h3 | ⟨x, hx, hqx⟩
      · rcases mem_setIP st p.1 (some p.2) q h3 with h4 | h4
        · exact Or.inr ⟨p, List.mem_cons_self _ _, h4⟩
        · exact Or.inl h4
      · exact Or.inr ⟨x, List.mem_cons_of_mem _ hx, hqx⟩
    | some ov =>
      cases ov with
      | none =>
        rw [syncAddOps_cons_skipnil p rest st hl] at h
        rcases ih st q hndrest h with h3 | ⟨x, hx, hqx⟩
        · exact Or.inl h3
        · exact Or.inr ⟨x, List.mem_cons_of_mem _ hx, hqx⟩
      | some cur =>
        by_cases hc : p.2 < cur
        · rw [syncAddOps_cons_keep p rest st cur hl hc] at h
          rcases ih st q hndrest h with h3 | ⟨x, hx, hqx⟩
          · exact Or.inl h3
          · exact Or.inr ⟨x, List.mem_cons_of_mem _ hx, hqx⟩
        · rw [syncAddOps_cons_add_ge p rest st cur hl hc, List.foldl_cons] at h
          have h2 : q ∈ (syncAddOps rest (setIP st p.1 (some p.2))).foldl applySyncOp
              (setIP st p.1 (some p.2)) := by
            rw [← hcongr]
            exact h
          rcases ih (setIP st p.1 (some p.2)) q hndrest h2 with h3 | ⟨x, hx, hqx⟩
          · rcases mem_setIP st p.1 (some p.2) q h3 with h4 | h4
            · exact Or.inr ⟨p, List.mem_cons_self _ _, h4⟩
            · exact Or.inl h4
          · exact Or.inr ⟨x, List.mem_cons_of_mem _ hx, hqx⟩

theorem syncDelOps_shape :
    ∀ (st : IPSetState) (D : List (Addr × Nat)) (op : SyncOp),
      op ∈ syncDelOps st D →
      ∃ b, op = SyncOp.del b ∧ D.find? (fun p => p.1 == b) = none := by
  intro st
  induction st with
  | nil => intro D op h; cases h
  | cons q rest ih =>
    intro D op h
    rw [syncDelOps_cons] at h
    rcases List.mem_append.mp h with h1 | h1
    · by_cases hf : (D.find? fun p => p.1 == q.1).isSome = true
      · rw [if_pos hf] at h1
        cases h1
      · rw [if_neg hf] at h1
        refine ⟨q.1, List.mem_singleton.mp h1, ?_⟩
        cases hfv : D.find? fun p => p.1 == q.1 with
        | none => rfl
        | some x => rw [hfv] at hf; exact absurd rfl hf
    · exact ih D op h1

theorem syncDelOps_complete :
    ∀ (st : IPSetState) (D : List (Addr × Nat)) (q : Addr × Option Nat), q ∈ st →
      D.find? (fun p => p.1 == q.1) = none → SyncOp.del q.1 ∈ syncDelOps st D := by
  intro st
  induction st with
  | nil => intro D q h; cases h
  | cons q0 rest ih =>
    intro D q hq hf
    rw [syncDelOps_cons]
    rcases List.mem_cons.mp hq with h1 | h1
    · subst h1
      have hns : ¬(D.find? fun p => p.1 == q.1).isSome = true := by
        rw [hf]
        simp
      rw [if_neg hns]
      exact List.mem_append.mpr (Or.inl (List.mem_singleton.mpr rfl))
    · exact List.mem_append.mpr (Or.inr (ih D q h1 hf))

theorem delsFold_mem :
    ∀ (ops : List SyncOp) (st : IPSetState) (q : Addr × Option Nat),
      (∀ op ∈ ops, ∃ b, op = SyncOp.del b) →
      q ∈ ops.foldl applySyncOp st → q ∈ st := by
  intro ops
  induction ops with
  | nil => intro st q _ h; exact h
  | cons op rest ih =>
    intro st q hall h
    obtain ⟨b, hb⟩ := hall op (List.mem_cons_self _ _)
    subst hb
    rw [List.foldl_cons] at h
    have h2 := ih (applySyncOp st (SyncOp.del b)) q
      (fun o ho => hall o (List.mem_cons_of_mem _ ho)) h
    exact (mem_delIP st b q h2).1

theorem delsFold_no_key :
    ∀ (ops : List SyncOp) (st : IPSetState) (q : Addr × Option Nat) (a : Addr),
      (∀ op ∈ ops, ∃ b, op = SyncOp.del b) → SyncOp.del a ∈ ops →
      q ∈ ops.foldl applySyncOp st → (q.1 == a) = false := by
  intro ops
  induction ops with
  | nil => intro st q a _ hmem; cases hmem
  | cons op rest ih =>
    intro st q a hall hmem h
    obtain ⟨b, hb⟩ := hall op (List.mem_cons_self _ _)
    subst hb
    rw [List.foldl_cons] at h
    rcases List.mem_cons.mp hmem with h1 | h1
    · injection h1 with hab
      subst hab
      have hq : q ∈ applySyncOp st (SyncOp.del a) :=
        delsFold_mem rest _ q (fun o ho => hall o (List.mem_cons_of_mem _ ho)) h
      exact (mem_delIP st a q hq).2
    · exact ih (applySyncOp st (SyncOp.del b)) q a
        (fun o ho => hall o (List.mem_cons_of_mem _ ho)) h1 h

theorem delsFold_lookup :
    ∀ (ops : List SyncOp) (st : IPSetState) (a : Addr),
      (∀ op ∈ ops, ∃ b, op = SyncOp.del b ∧ ¬b = a) →
      lookupIP (ops.foldl applySyncOp st) a = lookupIP st a := by
  intro ops
  induction ops with
  | nil => intro st a _; rfl
  | cons op rest ih =>
    intro st a hall
    obtain ⟨b, hb, hba⟩ := hall op (List.mem_cons_self _ _)
    subst hb
    rw [List.foldl_cons]
    have h2 := ih (applySyncOp st (SyncOp.del b)) a
      (fun o ho => hall o (List.mem_cons_of_mem _ ho))
    rw [h2]
    exact lookupIP_delIP_ne st b a hba

theorem syncDelOps_nil_of_covered :
    ∀ (st : IPSetState) (D : List (Addr × Nat)),
      (∀ q ∈ st, (D.find? fun p => p.1 == q.1).isSome = true) →
      syncDelOps st D = [] := by
  intro st
  induction st with
  | nil => intro D _; rfl
  | cons q rest ih =>
    intro D h
    rw [syncDelOps_cons, if_pos (h q (List.mem_cons_self _ _))]
    rw [List.nil_append]
    exact ih D (fun x hx => h x (List.mem_cons_of_mem _ hx))

theorem syncAddOps_all_benign :
    ∀ (D : List (Addr × Nat)) (stX : IPSetState),
      (∀ p ∈ D, ∃ old, lookupIP stX p.1 = mergeLook old p.2) →
      (syncAddOps D stX).all (benignOp stX) = true := by
  intro D
  induction D with
  | nil => intro stX _; rfl
  | cons p rest ih =>
    intro stX h
    obtain ⟨old, hold⟩ := h p (List.mem_cons_self _ _)
    have htail := ih stX (fun x hx => h x (List.mem_cons_of_mem _ hx))
    cases old with
    | none =>
      have hold2 : lookupIP stX p.1 = some (some p.2) := hold
      rw [syncAddOps_cons_add_ge p rest stX p.2 hold2 (lt_irrefl p.2),
        List.all_cons, htail]
      simp [benignOp, hold2]
    | some ov =>
      cases ov with
      | none =>
        have hold2 : lookupIP stX p.1 = some none := hold
        rw [syncAddOps_cons_skipnil p rest stX hold2]
        exact htail
      | some cur =>
        by_cases hc : p.2 < cur
        · have hold2 : lookupIP stX p.1 = some (some cur) := by
            rw [hold]
            show mergeLook (some (some cur)) p.2 = some (some cur)
            show (if p.2 < cur then some (some cur) else some (some p.2)) = _
            rw [if_pos hc]
          rw [syncAddOps_cons_keep p rest stX cur hold2 hc]
          exact htail
        · have hold2 : lookupIP stX p.1 = some (some p.2) := by
            rw [hold]
            show mergeLook (some (some cur)) p.2 = some (some p.2)
            show (if p.2 < cur then some (some cur) else some (some p.2)) = _
            rw [if_neg hc]
          rw [syncAddOps_cons_add_ge p rest stX p.2 hold2 (lt_irrefl p.2),
            List.all_cons, htail]
          simp [benignOp, hold2]

theorem benign_fold_lookup :
    ∀ (ops : List SyncOp) (stX st2 : IPSetState),
      (∀ c, lookupIP st2 c = lookupIP stX c) → ops.all (benignOp stX) = true →
      ∀ a, lookupIP (ops.foldl applySyncOp st2) a = lookupIP stX a := by
  intro ops
  induction ops with
  | nil => intro stX st2 h _ a; exact h a
  | cons op rest ih =>
    intro stX st2 h hall a
    simp only [List.all_cons, Bool.and_eq_true] at hall
    obtain ⟨hb, htail⟩ := hall
    cases op with
    | del b => simp [benignOp] at hb
    | add b t =>
      simp only [benignOp, beq_iff_eq] at hb
      rw [List.foldl_cons]
      refine ih stX (applySyncOp st2 (SyncOp.add b t)) ?_ htail a
      intro c
      by_cases hcb : b = c
      · subst hcb
        show lookupIP (setIP st2 b (some t)) b = lookupIP stX b
        rw [lookupIP_setIP_self st2 b (some t), hb]
      · show lookupIP (setIP st2 b (some t)) c = lookupIP stX c
        rw [lookupIP_setIP_ne st2 b c (some t) hcb]
        exact h c

/-- C5 (counterexample): the claim says a second back-to-back Sync run
with unchanged inputs issues no IP-set operations. With one enabled
always-matching rule, one known domain holding one live address and an
empty initial set, the first Sync adds the address; the immediately
repeated Sync re-issues the very same add (the skip condition
`ttl < stored` is strict, so an entry whose stored timeout equals the
desired one is re-added), so the second run's operation list is not
empty. -/
theorem sync_second_run_reissues_add :
    syncOps ⟨1, [⟨1, true, fun _ => true⟩]⟩ ["d"] (fun _ => [⟨"ip1", 1100⟩]) 1000
        (syncRun ⟨1, [⟨1, true, fun _ => true⟩]⟩ ["d"]
          (fun _ => [⟨"ip1", 1100⟩]) 1000 []) =
      [SyncOp.add "ip1" (U32 - 100)] ∧
    [SyncOp.add "ip1" (U32 - 100)] ≠ ([] : List SyncOp) := by
  exact ⟨by decide, by decide⟩

/-- C5 (amended): a second back-to-back Group.Sync run with unchanged
records contents, IP-set state and clock issues no delete operation,
and every operation it issues is an add that rewrites an entry already
present with exactly that timeout; consequently the observable IP-set
contents after the second run equal those after the first. -/
theorem sync_second_run_benign (g : Group) (kd : List DName)
    (getA : DName → List ARecordEntry) (now : Int) (st : IPSetState) :
    (syncOps g kd getA now (syncRun g kd getA now st)).all
        (benignOp (syncRun g kd getA now st)) = true ∧
    ∀ a, lookupIP (syncRun g kd getA now (syncRun g kd getA now st)) a =
      lookupIP (syncRun g kd getA now st) a := by
  have hnd : ((desiredAddresses g kd getA now).map Prod.fst).Nodup :=
    desired_keys_nodup g kd getA now
  set D := desiredAddresses g kd getA now with hDdef
  have hst1 : syncRun g kd getA now st =
      (syncDelOps st D).foldl applySyncOp ((syncAddOps D st).foldl applySyncOp st) := by
    show (syncAddOps D st ++ syncDelOps st D).foldl applySyncOp st = _
    rw [List.foldl_append]
  set stA := (syncAddOps D st).foldl applySyncOp st with hstA
  set st1 := syncRun g kd getA now st with hst1def
  have hdels_shape : ∀ op ∈ syncDelOps st D, ∃ b, op = SyncOp.del b :=
    fun op hop => (syncDelOps_shape st D op hop).imp (fun b hb => hb.1)
  -- every entry of st1 has its key in D
  have hcov : ∀ q ∈ st1, (D.find? fun p => p.1 == q.1).isSome = true := by
    intro q hq
    rw [hst1] at hq
    have hqA : q ∈ stA := delsFold_mem (syncDelOps st D) stA q hdels_shape hq
    by_contra hns
    have hfn : D.find? (fun p => p.1 == q.1) = none := by
      cases hfv : D.find? fun p => p.1 == q.1 with
      | none => rfl
      | some x => rw [hfv] at hns; exact absurd rfl hns
    rcases addPhase_mem D st q hnd hqA with hq0 | ⟨p, hp, hqp⟩
    · have hdel : SyncOp.del q.1 ∈ syncDelOps st D :=
        syncDelOps_complete st D q hq0 hfn
      have hfalse := delsFold_no_key (syncDelOps st D) stA q q.1 hdels_shape hdel hq
      simp at hfalse
    · have hfind := find?key_of_nodup_mem D hnd p hp
      have hq1 : q.1 = p.1 := by rw [hqp]
      rw [hq1, hfind] at hfn
      cases hfn
  -- the delete loop of the second run is empty
  have hdels2 : syncDelOps st1 D = [] := syncDelOps_nil_of_covered st1 D hcov
  -- lookup characterization of st1 at the keys of D
  have hchar : ∀ p ∈ D, ∃ old, lookupIP st1 p.1 = mergeLook old p.2 := by
    intro p hp
    have hfind := find?key_of_nodup_mem D hnd p hp
    have h1 : lookupIP stA p.1 = mergeLook (lookupIP st p.1) p.2 := by
      have h0 := addPhase_lookup D st p.1 hnd
      rw [hfind] at h0
      exact h0
    have h2 : lookupIP st1 p.1 = lookupIP stA p.1 := by
      rw [hst1]
      apply delsFold_lookup
      intro op hop
      rcases syncDelOps_shape st D op hop with ⟨b, hob, hbn⟩
      refine ⟨b, hob, ?_⟩
      intro hba
      rw [hba, hfind] at hbn
      cases hbn
    exact ⟨lookupIP st p.1, h2.trans h1⟩
  have hops2 : syncOps g kd getA now st1 = syncAddOps D st1 := by
    show syncAddOps D st1 ++ syncDelOps st1 D = _
    rw [hdels2, List.append_nil]
  have hall : (syncOps g kd getA now st1).all (benignOp st1) = true := by
    rw [hops2]
    exact syncAddOps_all_benign D st1 hchar
  refine ⟨hall, ?_⟩
  intro a
  show lookupIP ((syncOps g kd getA now st1).foldl applySyncOp st1) a = lookupIP st1 a
  exact benign_fold_lookup (syncOps g kd getA now st1) st1 st1
    (fun _ => rfl) hall a

end Magitrickle
